import Mathlib

/-!
Shallow embedding of the cryptanalysis core of the cryptoPals repository
(src/utils/src/lib.rs), together with proofs about it.

Modelling conventions:
* a Rust `u8` is a `Nat` (hypotheses `< 256` are added where a claim needs
  the byte range); `Vec<u8>` / `&[u8]` is `List Nat`;
* a Rust `String` is its list of Unicode scalar values (`List Nat`), and the
  UTF-8 codecs used by the source (`String::from_utf8`, `String::from_utf8_lossy`,
  `str::chars` + re-encoding) are modelled explicitly below;
* `f64` values are modelled exactly: frequency scores are dot products of
  integer counts with the 5-decimal-digit table weights, so they are kept as
  naturals scaled by 100000; normalized keysize distances are quotients of an
  integer total (at most 1920) by an integer denominator (at most 240), kept
  as exact rationals via `mkRat`.  Distinct exact values of either kind are
  separated by far more than the floating-point rounding error of the tiny
  sums the source computes, so the exact model orders and equates candidates
  exactly as the `f64` computation does;
* a Rust `panic!` / `.unwrap()` failure is `Option.none` (or `Except.error`
  in `guess_keysize`, whose two distinct panic sites the claims distinguish).
-/

/-- Binary popcount worker; the first argument is fuel, sufficient whenever
it is at least the bit length of the second argument. -/
def countOnesGo : Nat → Nat → Nat
  | _, 0 => 0
  | 0, _ => 0
  | fuel + 1, n => n % 2 + countOnesGo fuel (n / 2)

/-- Hamming weight of a natural number (models `u8::count_ones`); `n` itself
always exceeds the bit length of `n`, so it serves as fuel. -/
def countOnes (n : Nat) : Nat :=
  countOnesGo n n

/-- Model of `fixed_xor`: panics (`none`) when the lengths differ, otherwise
the bytewise XOR. -/
def fixed_xor (bytes_1 bytes_2 : List Nat) : Option (List Nat) :=
  if bytes_1.length = bytes_2.length then
    some (List.zipWith (fun b1 b2 => b1 ^^^ b2) bytes_1 bytes_2)
  else none

/-- Model of `edit_distance`: panics (`none`) when the lengths differ,
otherwise the sum of the Hamming weights of the bytewise XOR. -/
def edit_distance (bytes_1 bytes_2 : List Nat) : Option Nat :=
  if bytes_1.length = bytes_2.length then
    (fixed_xor bytes_1 bytes_2).map (fun l => (l.map countOnes).sum)
  else none

/-- The `LETTER_FREQ` table of the source, with every weight multiplied by
100000 so that it is an exact natural number (the source weights are the
5-decimal-digit reals 0.08167, 0.01492, ...; all scores below are therefore
represented multiplied by 100000, which preserves every comparison the
source performs).  Order: letters A..Z, then the space character. -/
def LETTER_FREQ : List Nat :=
  [8167, 1492, 2782, 4253, 12702, 2228, 2015,
   6094, 6966, 153, 772, 4025, 2406, 6749,
   7507, 1929, 95, 5987, 6327, 9056, 2758,
   978, 2360, 150, 1974, 74, 19181]

/-- The count slot a character updates in `count_freq_score`:
lowercase and uppercase letters fold to slots 0..25, space is slot 26,
every other character is ignored. -/
def slot (c : Nat) : Option Nat :=
  if 0x61 ≤ c ∧ c ≤ 0x7A then some (c - 0x61)
  else if 0x41 ≤ c ∧ c ≤ 0x5A then some (c - 0x41)
  else if c = 0x20 then some 26
  else none

/-- One step of the counting loop of `count_freq_score`. -/
def bump (counts : List Nat) (c : Nat) : List Nat :=
  match slot c with
  | some i => counts.set i (counts.getD i 0 + 1)
  | none => counts

/-- Dot product of the count vector with the weight vector. -/
def zipSum (A W : List Nat) : Nat :=
  (List.zipWith (fun cnt w => cnt * w) A W).sum

/-- Model of `count_freq_score`: tally the 27 slots over the text
(a list of Unicode scalar values) and take the dot product with
`LETTER_FREQ`.  The result is the source's f64 score times 100000. -/
def count_freq_score (chars : List Nat) : Nat :=
  zipSum (chars.foldl bump (List.replicate 27 0)) LETTER_FREQ

/-- The weight a single character contributes to `count_freq_score`. -/
def wOf (c : Nat) : Nat :=
  match slot c with
  | some i => LETTER_FREQ.getD i 0
  | none => 0

lemma zipSum_set (A : List Nat) (W : List Nat) :
    ∀ i, i < A.length → i < W.length →
      zipSum (A.set i (A.getD i 0 + 1)) W = zipSum A W + W.getD i 0 := by
  induction A generalizing W with
  | nil => intro i h _; simp at h
  | cons a A ih =>
    intro i hA hW
    cases W with
    | nil => simp at hW
    | cons w W =>
      cases i with
      | zero =>
        simp only [zipSum, List.set_cons_zero, List.getD_cons_zero,
          List.zipWith_cons_cons, List.sum_cons]
        ring
      | succ i =>
        simp only [zipSum, List.set_cons_succ, List.getD_cons_succ,
          List.zipWith_cons_cons, List.sum_cons]
        have hA2 : i < A.length := by simpa using hA
        have hW2 : i < W.length := by simpa using hW
        have := ih W i hA2 hW2
        simp only [zipSum] at this
        rw [this]
        ring

lemma slot_lt_27 {c i : Nat} (h : slot c = some i) : i < 27 := by
  unfold slot at h
  split_ifs at h with h1 h2 h3
  · injection h with h4; omega
  · injection h with h4; omega
  · injection h with h4; omega

lemma bump_length {A : List Nat} (c : Nat) : (bump A c).length = A.length := by
  unfold bump
  cases slot c <;> simp

lemma zipSum_bump (A : List Nat) (hA : A.length = 27) (c : Nat) :
    zipSum (bump A c) LETTER_FREQ = zipSum A LETTER_FREQ + wOf c := by
  unfold bump wOf
  cases h : slot c with
  | none => simp
  | some i =>
    have hi : i < 27 := slot_lt_27 h
    have hW : LETTER_FREQ.length = 27 := by decide
    exact zipSum_set A LETTER_FREQ i (by omega) (by omega)

lemma count_freq_score_eq_sum (chars : List Nat) :
    count_freq_score chars = (chars.map wOf).sum := by
  suffices h : ∀ (A : List Nat), A.length = 27 →
      zipSum (chars.foldl bump A) LETTER_FREQ
        = zipSum A LETTER_FREQ + (chars.map wOf).sum by
    have h0 := h (List.replicate 27 0) (by simp)
    unfold count_freq_score
    rw [h0]
    have hz : zipSum (List.replicate 27 0) LETTER_FREQ = 0 := by decide
    rw [hz, Nat.zero_add]
  induction chars with
  | nil => intro A _; simp
  | cons c chars ih =>
    intro A hA
    simp only [List.foldl_cons, List.map_cons, List.sum_cons]
    rw [ih (bump A c) (by rw [bump_length, hA]), zipSum_bump A hA c]
    ring

lemma count_freq_score_cons (c : Nat) (l : List Nat) :
    count_freq_score (c :: l) = wOf c + count_freq_score l := by
  rw [count_freq_score_eq_sum, count_freq_score_eq_sum, List.map_cons, List.sum_cons]

/-- A UTF-8 continuation byte (0x80..0xBF). -/
def isCont (b : Nat) : Bool :=
  decide (0x80 ≤ b ∧ b ≤ 0xBF)

/-- Valid second byte for a three-byte sequence with lead byte `b`
(E0 requires A0..BF, ED requires 80..9F, the rest accept any continuation
byte), per the UTF-8 validation Rust's string conversions implement. -/
def cont3 (b b1 : Nat) : Bool :=
  if b = 0xE0 then decide (0xA0 ≤ b1 ∧ b1 ≤ 0xBF)
  else if b = 0xED then decide (0x80 ≤ b1 ∧ b1 ≤ 0x9F)
  else isCont b1

/-- Valid second byte for a four-byte sequence with lead byte `b`
(F0 requires 90..BF, F4 requires 80..8F). -/
def cont4 (b b1 : Nat) : Bool :=
  if b = 0xF0 then decide (0x90 ≤ b1 ∧ b1 ≤ 0xBF)
  else if b = 0xF4 then decide (0x80 ≤ b1 ∧ b1 ≤ 0x8F)
  else isCont b1

/-- One step of Rust's lossy UTF-8 decoder on first byte `b` and remaining
bytes `rest`: the decoded Unicode scalar value (U+FFFD for a maximal invalid
subsequence) and the bytes still to decode (resuming at the offending byte,
as `String::from_utf8_lossy` does). -/
def utf8Step (b : Nat) (rest : List Nat) : Nat × List Nat :=
  if b < 0x80 then (b, rest)
  else if b < 0xC2 then (0xFFFD, rest)
  else if b < 0xE0 then
    match rest with
    | [] => (0xFFFD, [])
    | b1 :: rest1 =>
      if isCont b1 then ((b - 0xC0) * 0x40 + (b1 - 0x80), rest1)
      else (0xFFFD, b1 :: rest1)
  else if b < 0xF0 then
    match rest with
    | [] => (0xFFFD, [])
    | b1 :: rest1 =>
      if cont3 b b1 then
        match rest1 with
        | [] => (0xFFFD, [])
        | b2 :: rest2 =>
          if isCont b2 then
            ((b - 0xE0) * 0x1000 + (b1 - 0x80) * 0x40 + (b2 - 0x80), rest2)
          else (0xFFFD, b2 :: rest2)
      else (0xFFFD, b1 :: rest1)
  else if b < 0xF5 then
    match rest with
    | [] => (0xFFFD, [])
    | b1 :: rest1 =>
      if cont4 b b1 then
        match rest1 with
        | [] => (0xFFFD, [])
        | b2 :: rest2 =>
          if isCont b2 then
            match rest2 with
            | [] => (0xFFFD, [])
            | b3 :: rest3 =>
              if isCont b3 then
                ((b - 0xF0) * 0x40000 + (b1 - 0x80) * 0x1000
                  + (b2 - 0x80) * 0x40 + (b3 - 0x80), rest3)
              else (0xFFFD, b3 :: rest3)
          else (0xFFFD, b2 :: rest2)
      else (0xFFFD, b1 :: rest1)
  else (0xFFFD, rest)

lemma utf8Step_rest_le (b : Nat) (rest : List Nat) :
    (utf8Step b rest).2.length ≤ rest.length := by
  unfold utf8Step
  repeat' split
  all_goals simp_all
  all_goals omega

/-- Fuel-driven worker for the lossy decoder; the fuel is sufficient
whenever it is at least the length of the byte list. -/
def utf8LossyGo : Nat → List Nat → List Nat
  | _, [] => []
  | 0, _ :: _ => []
  | fuel + 1, b :: rest =>
    (utf8Step b rest).1 :: utf8LossyGo fuel (utf8Step b rest).2

/-- Model of `String::from_utf8_lossy` followed by `str::chars`: decode a
byte list to the list of Unicode scalar values, replacing invalid
subsequences with U+FFFD the way Rust's lossy decoder does. -/
def utf8Lossy (l : List Nat) : List Nat :=
  utf8LossyGo l.length l

lemma utf8LossyGo_fuel (fuel fuel2 : Nat) (l : List Nat)
    (h : l.length ≤ fuel) (h2 : l.length ≤ fuel2) :
    utf8LossyGo fuel l = utf8LossyGo fuel2 l := by
  induction fuel generalizing fuel2 l with
  | zero =>
    cases l with
    | nil => cases fuel2 <;> rfl
    | cons b rest => simp at h
  | succ fuel ih =>
    cases l with
    | nil => cases fuel2 <;> rfl
    | cons b rest =>
      cases fuel2 with
      | zero => simp at h2
      | succ fuel2 =>
        simp only [utf8LossyGo]
        have hle := utf8Step_rest_le b rest
        have hr : rest.length ≤ fuel := by simpa using h
        have hr2 : rest.length ≤ fuel2 := by simpa using h2
        rw [ih fuel2 (utf8Step b rest).2 (le_trans hle hr) (le_trans hle hr2)]

lemma utf8Lossy_cons (b : Nat) (rest : List Nat) :
    utf8Lossy (b :: rest) = (utf8Step b rest).1 :: utf8Lossy ((utf8Step b rest).2) := by
  unfold utf8Lossy
  simp only [List.length_cons, utf8LossyGo]
  exact congrArg _ (utf8LossyGo_fuel rest.length (utf8Step b rest).2.length _
    (utf8Step_rest_le b rest) (le_refl _))

lemma utf8Step_ascii {b : Nat} (hb : b < 0x80) (rest : List Nat) :
    utf8Step b rest = (b, rest) := by
  unfold utf8Step
  rw [if_pos hb]

lemma utf8Lossy_ascii_cons {b : Nat} (hb : b < 0x80) (rest : List Nat) :
    utf8Lossy (b :: rest) = b :: utf8Lossy rest := by
  rw [utf8Lossy_cons, utf8Step_ascii hb]

lemma utf8Lossy_nil_iff (l : List Nat) : utf8Lossy l = [] ↔ l = [] := by
  constructor
  · intro h
    cases l with
    | nil => rfl
    | cons b rest => rw [utf8Lossy_cons] at h; cases h
  · intro h; rw [h]; rfl

/-- One step of strict UTF-8 decoding on first byte `b` and remaining bytes
`rest`: the decoded Unicode scalar value and the bytes still to decode, or
`none` when the bytes do not start with a valid UTF-8 sequence. -/
def utf8StepStrict (b : Nat) (rest : List Nat) : Option (Nat × List Nat) :=
  if b < 0x80 then some (b, rest)
  else if b < 0xC2 then none
  else if b < 0xE0 then
    match rest with
    | [] => none
    | b1 :: rest1 =>
      if isCont b1 then some ((b - 0xC0) * 0x40 + (b1 - 0x80), rest1)
      else none
  else if b < 0xF0 then
    match rest with
    | [] => none
    | b1 :: rest1 =>
      if cont3 b b1 then
        match rest1 with
        | [] => none
        | b2 :: rest2 =>
          if isCont b2 then
            some ((b - 0xE0) * 0x1000 + (b1 - 0x80) * 0x40 + (b2 - 0x80), rest2)
          else none
      else none
  else if b < 0xF5 then
    match rest with
    | [] => none
    | b1 :: rest1 =>
      if cont4 b b1 then
        match rest1 with
        | [] => none
        | b2 :: rest2 =>
          if isCont b2 then
            match rest2 with
            | [] => none
            | b3 :: rest3 =>
              if isCont b3 then
                some ((b - 0xF0) * 0x40000 + (b1 - 0x80) * 0x1000
                  + (b2 - 0x80) * 0x40 + (b3 - 0x80), rest3)
              else none
          else none
      else none
  else none

set_option maxRecDepth 8000 in
lemma utf8StepStrict_rest_le {b : Nat} {rest : List Nat} {s : Nat × List Nat}
    (h : utf8StepStrict b rest = some s) : s.2.length ≤ rest.length := by
  unfold utf8StepStrict at h
  repeat' split at h
  all_goals (try cases h)
  all_goals simp_all
  all_goals omega

/-- Fuel-driven worker for strict UTF-8 decoding. -/
def utf8DecodeGo : Nat → List Nat → Option (List Nat)
  | _, [] => some []
  | 0, _ :: _ => none
  | fuel + 1, b :: rest =>
    (utf8StepStrict b rest).bind (fun s => (utf8DecodeGo fuel s.2).map (fun l => s.1 :: l))

/-- Model of `String::from_utf8` followed by `str::chars`: decode a byte
list to its list of Unicode scalar values, or `none` (an `unwrap` panic in
the source) when the bytes are not valid UTF-8. -/
def utf8Decode (l : List Nat) : Option (List Nat) :=
  utf8DecodeGo l.length l

lemma utf8DecodeGo_fuel (fuel : Nat) : ∀ (fuel2 : Nat) (l : List Nat),
    l.length ≤ fuel → l.length ≤ fuel2 →
    utf8DecodeGo fuel l = utf8DecodeGo fuel2 l := by
  induction fuel with
  | zero =>
    intro fuel2 l h h2
    cases l with
    | nil => cases fuel2 <;> rfl
    | cons b rest => simp at h
  | succ fuel ih =>
    intro fuel2 l h h2
    cases l with
    | nil => cases fuel2 <;> rfl
    | cons b rest =>
      cases fuel2 with
      | zero => simp at h2
      | succ fuel2 =>
        simp only [utf8DecodeGo]
        cases hs : utf8StepStrict b rest with
        | none => rfl
        | some s =>
          have hle := utf8StepStrict_rest_le hs
          have hr : rest.length ≤ fuel := by simpa using h
          have hr2 : rest.length ≤ fuel2 := by simpa using h2
          simp only [Option.some_bind]
          rw [ih fuel2 s.2 (le_trans hle hr) (le_trans hle hr2)]

lemma utf8Decode_cons (b : Nat) (rest : List Nat) :
    utf8Decode (b :: rest)
      = (utf8StepStrict b rest).bind (fun s => (utf8Decode s.2).map (fun l => s.1 :: l)) := by
  unfold utf8Decode
  simp only [List.length_cons, utf8DecodeGo]
  cases hs : utf8StepStrict b rest with
  | none => rfl
  | some s =>
    have hle := utf8StepStrict_rest_le hs
    simp only [Option.some_bind]
    rw [utf8DecodeGo_fuel rest.length s.2.length s.2 hle (le_refl _)]

lemma utf8Decode_ascii {l : List Nat} (h : ∀ b ∈ l, b < 0x80) :
    utf8Decode l = some l := by
  induction l with
  | nil => rfl
  | cons b rest ih =>
    have hb : b < 0x80 := h b (List.mem_cons_self b rest)
    have hr := ih (fun x hx => h x (List.mem_cons_of_mem b hx))
    rw [utf8Decode_cons]
    have hs : utf8StepStrict b rest = some (b, rest) := by
      unfold utf8StepStrict
      rw [if_pos hb]
    rw [hs]
    simp only [Option.some_bind]
    rw [hr]
    rfl

/-- UTF-8 encoding of one Unicode scalar value (models pushing a `char`
onto a Rust `String` and taking its bytes). -/
def utf8EncodeChar (c : Nat) : List Nat :=
  if c < 0x80 then [c]
  else if c < 0x800 then [0xC0 + c / 0x40, 0x80 + c % 0x40]
  else if c < 0x10000 then
    [0xE0 + c / 0x1000, 0x80 + c / 0x40 % 0x40, 0x80 + c % 0x40]
  else
    [0xF0 + c / 0x40000, 0x80 + c / 0x1000 % 0x40, 0x80 + c / 0x40 % 0x40, 0x80 + c % 0x40]

/-- UTF-8 encoding of a list of Unicode scalar values (models
`String::into_bytes` of a string built from those chars). -/
def utf8Encode (l : List Nat) : List Nat :=
  (l.map utf8EncodeChar).flatten

lemma utf8Encode_ascii {l : List Nat} (h : ∀ b ∈ l, b < 0x80) :
    utf8Encode l = l := by
  induction l with
  | nil => rfl
  | cons b rest ih =>
    have hb : b < 0x80 := h b (List.mem_cons_self b rest)
    have hr := ih (fun x hx => h x (List.mem_cons_of_mem b hx))
    simp only [utf8Encode, List.map_cons, List.flatten_cons] at hr ⊢
    rw [hr, utf8EncodeChar, if_pos hb]
    rfl

/-- The candidate triple `break_single_char_xor` builds for one key:
(score, key, decoded plaintext), where the plaintext is the lossy decoding
of the ciphertext XORed with the key. -/
def keyCand (bytes : List Nat) (k : Nat) : Nat × Nat × List Nat :=
  (count_freq_score (utf8Lossy (bytes.map (fun b => b ^^^ k))), k,
    utf8Lossy (bytes.map (fun b => b ^^^ k)))

/-- The score of one key in `break_single_char_xor`. -/
def keyScore (bytes : List Nat) (k : Nat) : Nat :=
  (keyCand bytes k).1

/-- Model of `break_single_char_xor`: fold over the 256 keys, keeping the
candidate whenever its score strictly exceeds the best score so far,
starting from the sentinel (0, 0, ""). -/
def break_single_char_xor (bytes : List Nat) : Nat × Nat × List Nat :=
  (List.range 256).foldl
    (fun best k => if best.1 < (keyCand bytes k).1 then keyCand bytes k else best)
    (0, 0, [])

lemma bscx_foldl_spec (bytes : List Nat) (n : Nat) :
    ((List.range n).foldl
        (fun best k => if best.1 < (keyCand bytes k).1 then keyCand bytes k else best)
        (0, 0, []) = (0, 0, []) ∧ ∀ k < n, keyScore bytes k = 0) ∨
      (∃ k, k < n ∧
        (List.range n).foldl
          (fun best k => if best.1 < (keyCand bytes k).1 then keyCand bytes k else best)
          (0, 0, []) = keyCand bytes k ∧
        0 < keyScore bytes k ∧
        (∀ j < n, keyScore bytes j ≤ keyScore bytes k) ∧
        (∀ j < k, keyScore bytes j < keyScore bytes k)) := by
  induction n with
  | zero => exact Or.inl ⟨rfl, fun k hk => absurd hk (Nat.not_lt_zero k)⟩
  | succ n ih =>
    rw [List.range_succ, List.foldl_append, List.foldl_cons, List.foldl_nil]
    rcases ih with ⟨hR, hall⟩ | ⟨k, hk, hR, hpos, hmax, hfirst⟩
    · rw [hR]
      by_cases hn : (0:Nat) < (keyCand bytes n).1
      · refine Or.inr ⟨n, Nat.lt_succ_self n, ?_, hn, ?_, ?_⟩
        · simp [hn]
        · intro j hj
          rcases Nat.lt_succ_iff_lt_or_eq.mp hj with hj2 | rfl
          · rw [hall j hj2]; exact Nat.zero_le _
          · exact le_refl _
        · intro j hj
          rw [hall j hj]
          exact hn
      · have hz : (keyCand bytes n).1 = 0 := by omega
        refine Or.inl ⟨by simp [hn], ?_⟩
        intro j hj
        rcases Nat.lt_succ_iff_lt_or_eq.mp hj with hj2 | rfl
        · exact hall j hj2
        · exact hz
    · rw [hR]
      by_cases hn : (keyCand bytes k).1 < (keyCand bytes n).1
      · refine Or.inr ⟨n, Nat.lt_succ_self n, by simp [hn], ?_, ?_, ?_⟩
        · exact lt_trans hpos hn
        · intro j hj
          rcases Nat.lt_succ_iff_lt_or_eq.mp hj with hj2 | rfl
          · exact le_of_lt (lt_of_le_of_lt (hmax j hj2) hn)
          · exact le_refl _
        · intro j hj
          exact lt_of_le_of_lt (hmax j hj) hn
      · refine Or.inr ⟨k, lt_trans hk (Nat.lt_succ_self n), by simp [hn], hpos, ?_, hfirst⟩
        intro j hj
        rcases Nat.lt_succ_iff_lt_or_eq.mp hj with hj2 | rfl
        · exact hmax j hj2
        · exact Nat.le_of_not_lt hn
  
lemma keyScore_space_pos (b : Nat) (rest : List Nat) :
    0 < keyScore (b :: rest) (b ^^^ 0x20) := by
  have hx : b ^^^ (b ^^^ 0x20) = 0x20 := by
    rw [← Nat.xor_assoc, Nat.xor_self, Nat.zero_xor]
  rw [keyScore, keyCand]
  simp only [List.map_cons, hx]
  rw [utf8Lossy_ascii_cons (by decide), count_freq_score_cons]
  have hw : wOf 0x20 = 19181 := by decide
  omega

lemma break_single_char_xor_spec (bytes : List Nat) (hbytes : ∀ x ∈ bytes, x < 256) :
    ∃ k, k < 256 ∧ break_single_char_xor bytes = keyCand bytes k ∧
      (∀ j < 256, keyScore bytes j ≤ keyScore bytes k) ∧
      (∀ j < k, keyScore bytes j < keyScore bytes k) := by
  rcases bscx_foldl_spec bytes 256 with ⟨hR, hall⟩ | ⟨k, hk, hR, _, hmax, hfirst⟩
  · cases bytes with
    | cons b rest =>
      exfalso
      have hkey : b ^^^ 0x20 < 256 := by
        have hb : b < 256 := hbytes b (List.mem_cons_self b rest)
        have h2 : (0x20:Nat) < 2 ^ 8 := by decide
        have hb2 : b < 2 ^ 8 := hb
        have := Nat.xor_lt_two_pow hb2 h2
        simpa using this
      have := keyScore_space_pos b rest
      rw [hall (b ^^^ 0x20) hkey] at this
      exact Nat.lt_irrefl 0 this
    | nil =>
      refine ⟨0, by decide, ?_, ?_, fun j hj => absurd hj (Nat.not_lt_zero j)⟩
      · rw [break_single_char_xor, hR]
        rfl
      · intro j hj
        rw [hall j hj]
        exact Nat.zero_le _
  · exact ⟨k, hk, hR, hmax, hfirst⟩

/-- Fuel-driven worker for `slice::chunks`: split into consecutive blocks of
`k` bytes, the last block possibly shorter.  (`chunks(0)` panics in Rust and
is never called by the source; the worker returns `[]` there.) -/
def chunksGo (k : Nat) : Nat → List Nat → List (List Nat)
  | _, [] => []
  | 0, _ :: _ => []
  | fuel + 1, b :: rest =>
    if k = 0 then []
    else (b :: rest).take k :: chunksGo k fuel ((b :: rest).drop k)

/-- Model of `data.chunks(k)`: consecutive blocks of `k` bytes, the final
block possibly shorter; the list length is sufficient fuel. -/
def chunksList (k : Nat) (l : List Nat) : List (List Nat) :=
  chunksGo k l.length l

lemma chunksGo_fuel (k : Nat) (fuel : Nat) : ∀ (fuel2 : Nat) (l : List Nat),
    l.length ≤ fuel → l.length ≤ fuel2 → chunksGo k fuel l = chunksGo k fuel2 l := by
  induction fuel with
  | zero =>
    intro fuel2 l h h2
    cases l with
    | nil => cases fuel2 <;> rfl
    | cons b rest => simp at h
  | succ fuel ih =>
    intro fuel2 l h h2
    cases l with
    | nil => cases fuel2 <;> rfl
    | cons b rest =>
      cases fuel2 with
      | zero => simp at h2
      | succ fuel2 =>
        simp only [List.length_cons] at h h2
        simp only [chunksGo]
        by_cases hk : k = 0
        · rw [if_pos hk, if_pos hk]
        · rw [if_neg hk, if_neg hk]
          have hd : ((b :: rest).drop k).length ≤ fuel := by
            simp only [List.length_drop, List.length_cons]
            omega
          have hd2 : ((b :: rest).drop k).length ≤ fuel2 := by
            simp only [List.length_drop, List.length_cons]
            omega
          rw [ih fuel2 ((b :: rest).drop k) hd hd2]

lemma chunksList_cons (k : Nat) (hk : k ≠ 0) {l : List Nat} (hl : l ≠ []) :
    chunksList k l = l.take k :: chunksList k (l.drop k) := by
  cases l with
  | nil => exact absurd rfl hl
  | cons b rest =>
    show chunksGo k (rest.length + 1) (b :: rest) = _
    simp only [chunksGo, if_neg hk]
    have hd : ((b :: rest).drop k).length ≤ rest.length := by
      simp only [List.length_drop, List.length_cons]
      omega
    rw [chunksGo_fuel k rest.length ((b :: rest).drop k).length ((b :: rest).drop k)
      hd (le_refl _)]
    rfl

lemma chunksList_zero (l : List Nat) : chunksList 0 l = [] := by
  cases l with
  | nil => rfl
  | cons b rest => simp [chunksList, chunksGo]

lemma chunksGo_mem_length (k : Nat) (fuel : Nat) : ∀ (l c : List Nat), l.length ≤ fuel →
    c ∈ chunksGo k fuel l → c.length ≤ min k l.length := by
  induction fuel with
  | zero =>
    intro l c h hc
    cases l with
    | nil => cases hc
    | cons b rest => simp at h
  | succ fuel ih =>
    intro l c h hc
    cases l with
    | nil => cases hc
    | cons b rest =>
      simp only [chunksGo] at hc
      by_cases hk : k = 0
      · rw [if_pos hk] at hc
        cases hc
      · rw [if_neg hk] at hc
        rcases List.mem_cons.mp hc with rfl | hc2
        · rw [List.length_take]
        · simp only [List.length_cons] at h
          have h1 : ((b :: rest).drop k).length ≤ fuel := by
            simp only [List.length_drop, List.length_cons]
            omega
          have h2 := ih _ _ h1 hc2
          simp only [List.length_drop, List.length_cons] at h2 ⊢
          omega

lemma chunksList_mem_length {k : Nat} {l c : List Nat} (hc : c ∈ chunksList k l) :
    c.length ≤ min k l.length :=
  chunksGo_mem_length k l.length l c (le_refl _) hc

/-- Model of `transpose_blocks`: the source first reads `blocks[0].len()`
(an index-out-of-bounds panic, `none`, when `blocks` is empty) to size the
column vectors, then pushes byte `i` of every block onto column `i` (an
out-of-bounds panic when some block is longer than the first one). -/
def transpose_blocks (blocks : List (List Nat)) : Option (List (List Nat)) :=
  match blocks with
  | [] => none
  | b0 :: _ =>
    if blocks.all (fun b => decide (b.length ≤ b0.length)) then
      some ((List.range b0.length).map (fun i => blocks.filterMap (fun b => b.get? i)))
    else none

/-- Column `i` of the chunked-and-transposed ciphertext. -/
def colOfChunks (k i : Nat) (ct : List Nat) : List Nat :=
  (chunksList k ct).filterMap (fun b => b.get? i)

/-- The bytes of `ct` at positions congruent to `i` modulo `k`, in position
order: the transposed column as the specification describes it. -/
def colBytes (k i : Nat) (ct : List Nat) : List Nat :=
  ((List.range ct.length).filter (fun j => decide (j % k = i))).map (fun j => ct.getD j 0)

lemma getD_drop (l : List Nat) (k j : Nat) :
    (l.drop k).getD j 0 = l.getD (k + j) 0 := by
  rw [List.getD_eq_getElem?_getD, List.getD_eq_getElem?_getD, List.getElem?_drop]

lemma colBytes_of_ge {k i : Nat} {ct : List Nat} (h : ct.length ≤ i) :
    colBytes k i ct = [] := by
  unfold colBytes
  have hf : (List.range ct.length).filter (fun j => decide (j % k = i)) = [] := by
    apply List.filter_eq_nil_iff.mpr
    intro j hj
    have hj2 : j < ct.length := List.mem_range.mp hj
    have hj3 : j % k ≤ j := Nat.mod_le j k
    simp only [decide_eq_true_eq]
    omega
  rw [hf]
  rfl

lemma range_filter_eq_single {m i : Nat} (hi : i < m) :
    (List.range m).filter (fun j => decide (j = i)) = [i] := by
  induction m with
  | zero => exact absurd hi (Nat.not_lt_zero i)
  | succ m ih =>
    rw [List.range_succ, List.filter_append]
    by_cases him : i = m
    · subst him
      have h1 : (List.range i).filter (fun j => decide (j = i)) = [] := by
        apply List.filter_eq_nil_iff.mpr
        intro j hj
        have := List.mem_range.mp hj
        simp only [decide_eq_true_eq]
        omega
      rw [h1]
      simp
    · have hi2 : i < m := by omega
      rw [ih hi2]
      have hmi : m ≠ i := fun h => him h.symm
      simp [hmi]

lemma colBytes_shift {k i : Nat} (hik : i < k) {ct : List Nat} (hi : i < ct.length) :
    colBytes k i ct = ct.getD i 0 :: colBytes k i (ct.drop k) := by
  by_cases hkn : ct.length ≤ k
  · have hdrop : ct.drop k = [] := List.drop_eq_nil_of_le hkn
    unfold colBytes
    have hcong : (List.range ct.length).filter (fun j => decide (j % k = i))
        = (List.range ct.length).filter (fun j => decide (j = i)) := by
      apply List.filter_congr
      intro j hj
      have hj2 : j < ct.length := List.mem_range.mp hj
      rw [Nat.mod_eq_of_lt (by omega)]
    rw [hcong, range_filter_eq_single hi, hdrop]
    simp
  · push_neg at hkn
    have e1 : (List.range k).filter (fun j => decide (j % k = i)) = [i] := by
      have hcong : (List.range k).filter (fun j => decide (j % k = i))
          = (List.range k).filter (fun j => decide (j = i)) := by
        apply List.filter_congr
        intro j hj
        have hj2 : j < k := List.mem_range.mp hj
        rw [Nat.mod_eq_of_lt hj2]
      rw [hcong, range_filter_eq_single hik]
    have e2 : (List.map (fun x => k + x) (List.range (ct.length - k))).filter
          (fun j => decide (j % k = i))
        = List.map (fun x => k + x)
            ((List.range (ct.length - k)).filter (fun j => decide (j % k = i))) := by
      rw [List.filter_map]
      congr 1
      apply List.filter_congr
      intro j hj
      simp only [Function.comp_apply, Nat.add_mod_left]
    unfold colBytes
    conv_lhs => rw [show ct.length = k + (ct.length - k) by omega, List.range_add,
      List.filter_append, e1, e2]
    rw [List.map_append, List.map_map]
    have e3 : ((List.range (ct.length - k)).filter (fun j => decide (j % k = i))).map
          ((fun j => ct.getD j 0) ∘ fun x => k + x)
        = ((List.range (ct.length - k)).filter (fun j => decide (j % k = i))).map
          (fun j => (ct.drop k).getD j 0) := by
      apply List.map_congr_left
      intro j hj
      simp only [Function.comp_apply, getD_drop]
    rw [e3, List.length_drop]
    simp

lemma colOfChunks_eq_colBytes (k i : Nat) (hk : k ≠ 0) (hik : i < k) :
    ∀ (n : Nat) (ct : List Nat), ct.length ≤ n → colOfChunks k i ct = colBytes k i ct := by
  intro n
  induction n with
  | zero =>
    intro ct h
    cases ct with
    | nil => rfl
    | cons b rest => simp at h
  | succ n ih =>
    intro ct h
    cases ct with
    | nil => rfl
    | cons b rest =>
      have hdroplen : ((b :: rest).drop k).length ≤ n := by
        simp only [List.length_drop, List.length_cons]
        simp only [List.length_cons] at h
        omega
      have htail : (chunksList k ((b :: rest).drop k)).filterMap (fun c => c.get? i)
          = colOfChunks k i ((b :: rest).drop k) := rfl
      by_cases hi : i < (b :: rest).length
      · have htake : ((b :: rest).take k).get? i = some ((b :: rest).getD i 0) := by
          rw [List.get?_eq_getElem?, List.getElem?_take_of_lt hik,
            List.getElem?_eq_getElem hi, List.getD_eq_getElem (b :: rest) 0 hi]
        rw [colOfChunks, chunksList_cons k hk (by simp)]
        simp only [List.filterMap_cons, htake]
        rw [htail, ih _ hdroplen, ← colBytes_shift hik hi]
      · push_neg at hi
        have htake : ((b :: rest).take k).get? i = none := by
          apply List.get?_eq_none.mpr
          rw [List.length_take]
          omega
        rw [colOfChunks, chunksList_cons k hk (by simp)]
        simp only [List.filterMap_cons, htake]
        rw [htail, ih _ hdroplen, colBytes_of_ge hi, colBytes_of_ge]
        simp only [List.length_drop]
        omega

/-- The key-recovery stage of `break_repeating_key_xor` (lines 143..150 of
the source): chunk the ciphertext, transpose, and take the winning key byte
of `break_single_char_xor` on every transposed block. -/
def keyBytesOf (keysize : Nat) (ct : List Nat) : Option (List Nat) :=
  (transpose_blocks (chunksList keysize ct)).map
    (fun cols => cols.map (fun b => (break_single_char_xor b).2.1))

/-- Model of `repeat_key`'s char cycling: the first `size` characters of the
infinite repetition of `key` (empty when `key` is empty, as iterating a
cycled empty iterator yields nothing). -/
def cycleTake (size : Nat) (key : List Nat) : List Nat :=
  if key = [] then []
  else (List.range size).map (fun m => key.getD (m % key.length) 0)

/-- Model of `repeat_key`: cycle the *characters* of the key string to
`size` characters and re-encode them as UTF-8 bytes (the source collects
`key.chars().cycle().take(size)` into a `String` and takes its bytes). -/
def repeat_key (size : Nat) (key : List Nat) : List Nat :=
  utf8Encode (cycleTake size key)

/-- Model of `bytes_to_plaintext`: `String::from_utf8(bytes).unwrap()`,
yielding the character list or `none` (panic) on invalid UTF-8. -/
def bytes_to_plaintext (bytes : List Nat) : Option (List Nat) :=
  utf8Decode bytes

/-- Model of `break_repeating_key_xor`: recover the key per transposed
column, then decode the ciphertext XORed with the cycled key.  Any `none`
is a panic of the corresponding source step. -/
def break_repeating_key_xor (keysize : Nat) (ct : List Nat) :
    Option (List Nat × List Nat) :=
  (keyBytesOf keysize ct).bind (fun kb =>
    (bytes_to_plaintext kb).bind (fun keyChars =>
      (fixed_xor ct (repeat_key ct.length keyChars)).bind (fun xored =>
        (bytes_to_plaintext xored).map (fun plaintext => (kb, plaintext)))))

/-- The two panic sites of `guess_keysize`: `edit_distance`'s
length-mismatch panic inside the sampling loop, and the `unwrap` of
`partial_cmp` in `distances.sort_by` comparing a NaN (the 0/0 produced when
fewer than two blocks were sampled), plus the (unreachable) empty-index
panic of `distances[0]`. -/
inductive GKErr
  | lenMismatch
  | sortNaN
  | indexOOB
deriving DecidableEq

/-- Sum of `edit_distance` from `b` to every block in the list, `none` on
the first length-mismatch panic. -/
def sumAgainst (b : List Nat) : List (List Nat) → Option Nat
  | [] => some 0
  | c :: cs =>
    (edit_distance b c).bind (fun d => (sumAgainst b cs).map (fun r => d + r))

/-- Sum of `edit_distance` over all unordered pairs of blocks, in the
source's loop order, `none` on the first length-mismatch panic. -/
def sumPairs : List (List Nat) → Option Nat
  | [] => some 0
  | b :: rest =>
    (sumAgainst b rest).bind (fun x => (sumPairs rest).map (fun y => x + y))

/-- One iteration of `guess_keysize`'s candidate loop: sample up to four
blocks of size `ks`, sum the pairwise distances and divide by
(pairs x keysize).  `Except.error .lenMismatch` is the `edit_distance`
panic on a short final block; `Except.ok none` is the NaN the f64 division
0/0 produces when fewer than two blocks exist (`pairs = 0`); otherwise the
normalized distance is the exact rational total/(pairs*ks). -/
def candidate (data : List Nat) (ks : Nat) : Except GKErr (Option ℚ) :=
  let blocks := (chunksList ks data).take 4
  match sumPairs blocks with
  | none => Except.error GKErr.lenMismatch
  | some total =>
    let pairs := blocks.length * (blocks.length - 1) / 2
    if pairs = 0 then Except.ok none
    else Except.ok (some (mkRat total (pairs * ks)))

/-- The candidate loop of `guess_keysize` over a list of keysizes,
aborting at the first `edit_distance` panic. -/
def gkLoop (data : List Nat) : List Nat → Except GKErr (List (Nat × Option ℚ))
  | [] => Except.ok []
  | ks :: rest =>
    match candidate data ks with
    | Except.error e => Except.error e
    | Except.ok q =>
      match gkLoop data rest with
      | Except.error e => Except.error e
      | Except.ok tl => Except.ok ((ks, q) :: tl)

/-- The NaN check of the sort: `sort_by(partial_cmp.unwrap())` panics as
soon as any NaN entry is compared, so the sorted list exists exactly when
every normalized distance is an actual rational. -/
def liftOpt : List (Nat × Option ℚ) → Option (List (Nat × ℚ))
  | [] => some []
  | (ks, q?) :: rest =>
    match q? with
    | none => none
    | some q => (liftOpt rest).map (fun tl => (ks, q) :: tl)

/-- First entry with minimal normalized distance: the head of the stable
ascending sort the source performs (`distances.sort_by(...); distances[0]`),
since a stable sort moves the earliest minimum to the front. -/
def pickMin : List (Nat × ℚ) → Option (Nat × ℚ)
  | [] => none
  | c :: rest =>
    match pickMin rest with
    | none => some c
    | some b => if b.2 < c.2 then some b else some c

/-- Model of `guess_keysize`: evaluate all candidate keysizes 2..=40 in
order, then sort by normalized distance and return the first keysize. -/
def guess_keysize (data : List Nat) : Except GKErr Nat :=
  match gkLoop data ((List.range 39).map (fun m => m + 2)) with
  | Except.error e => Except.error e
  | Except.ok cands =>
    match liftOpt cands with
    | none => Except.error GKErr.sortNaN
    | some vals =>
      match pickMin vals with
      | none => Except.error GKErr.indexOOB
      | some best => Except.ok best.1

lemma pickMin_isSome (c : Nat × ℚ) (rest : List (Nat × ℚ)) :
    pickMin (c :: rest) ≠ none := by
  cases hr : pickMin rest with
  | none => simp [pickMin, hr]
  | some b =>
    simp only [pickMin, hr]
    split_ifs <;> simp

lemma pickMin_spec : ∀ (l : List (Nat × ℚ)) (b : Nat × ℚ), pickMin l = some b →
    (∃ l1 l2, l = l1 ++ b :: l2 ∧ ∀ c ∈ l1, b.2 < c.2) ∧ ∀ c ∈ l, b.2 ≤ c.2 := by
  intro l
  induction l with
  | nil => intro b h; cases h
  | cons c rest ih =>
    intro b h
    cases hr : pickMin rest with
    | none =>
      simp only [pickMin, hr] at h
      injection h with h2
      subst h2
      have hrest : rest = [] := by
        cases rest with
        | nil => rfl
        | cons d ds => exact absurd hr (pickMin_isSome d ds)
      subst hrest
      exact ⟨⟨[], [], rfl, by simp⟩, by simp⟩
    | some m =>
      simp only [pickMin, hr] at h
      by_cases hlt : m.2 < c.2
      · rw [if_pos hlt] at h
        injection h with h2
        subst h2
        obtain ⟨⟨l1, l2, hsplit, hl1⟩, hall⟩ := ih m hr
        refine ⟨⟨c :: l1, l2, by rw [hsplit, List.cons_append], ?_⟩, ?_⟩
        · intro x hx
          rcases List.mem_cons.mp hx with rfl | hx2
          · exact hlt
          · exact hl1 x hx2
        · intro x hx
          rcases List.mem_cons.mp hx with rfl | hx2
          · exact le_of_lt hlt
          · exact hall x hx2
      · rw [if_neg hlt] at h
        injection h with h2
        subst h2
        obtain ⟨_, hall⟩ := ih m hr
        refine ⟨⟨[], rest, rfl, by simp⟩, ?_⟩
        intro x hx
        rcases List.mem_cons.mp hx with rfl | hx2
        · exact le_refl _
        · exact le_trans (le_of_not_lt hlt) (hall x hx2)

lemma gkVals (data : List Nat) :
    ∀ (l : List Nat) (cands : List (Nat × Option ℚ)) (vals : List (Nat × ℚ)),
    gkLoop data l = Except.ok cands → liftOpt cands = some vals →
    vals.map Prod.fst = l ∧
    (∀ ks ∈ l, ∃ q : ℚ, candidate data ks = Except.ok (some q) ∧ (ks, q) ∈ vals) ∧
    (∀ v ∈ vals, candidate data v.1 = Except.ok (some v.2)) := by
  intro l
  induction l with
  | nil =>
    intro cands vals h1 h2
    injection h1 with h1e
    subst h1e
    injection h2 with h2e
    subst h2e
    exact ⟨rfl, by simp, by simp⟩
  | cons ks rest ih =>
    intro cands vals h1 h2
    cases hc : candidate data ks with
    | error e =>
      simp only [gkLoop, hc] at h1
      exact Except.noConfusion h1
    | ok q =>
      cases hg : gkLoop data rest with
      | error e =>
        simp only [gkLoop, hc, hg] at h1
        exact Except.noConfusion h1
      | ok tl =>
        simp only [gkLoop, hc, hg] at h1
        injection h1 with h1e
        subst h1e
        cases q with
        | none =>
          cases hl : liftOpt tl with
          | none =>
            simp only [liftOpt, hl] at h2
            exact Option.noConfusion h2
          | some vtl =>
            simp only [liftOpt, hl] at h2
            exact Option.noConfusion h2
        | some qv =>
          cases hl : liftOpt tl with
          | none =>
            simp only [liftOpt, hl] at h2
            exact Option.noConfusion h2
          | some vtl =>
            simp only [liftOpt, hl] at h2
            injection h2 with h2e
            subst h2e
            obtain ⟨hmap, hforall, hback⟩ := ih tl vtl hg hl
            refine ⟨by simp [hmap], ?_, ?_⟩
            · intro x hx
              rcases List.mem_cons.mp hx with rfl | hx2
              · exact ⟨qv, hc, List.mem_cons_self _ _⟩
              · obtain ⟨qq, hq1, hq2⟩ := hforall x hx2
                exact ⟨qq, hq1, List.mem_cons_of_mem _ hq2⟩
            · intro v hv
              rcases List.mem_cons.mp hv with rfl | hv2
              · exact hc
              · exact hback v hv2

lemma mem_ksRange (ks : Nat) :
    ks ∈ (List.range 39).map (fun m => m + 2) ↔ 2 ≤ ks ∧ ks ≤ 40 := by
  simp only [List.mem_map, List.mem_range]
  constructor
  · rintro ⟨m, hm, rfl⟩
    omega
  · intro h
    exact ⟨ks - 2, by omega, by omega⟩

lemma transpose_chunks_some (keysize : Nat) (hk : 1 ≤ keysize) {ct : List Nat}
    (hct : ct ≠ []) :
    transpose_blocks (chunksList keysize ct)
      = some ((List.range (min keysize ct.length)).map
          (fun i => colOfChunks keysize i ct)) := by
  have hkz : keysize ≠ 0 := by omega
  have hchunks := chunksList_cons keysize hkz hct
  have hall : ((ct.take keysize :: chunksList keysize (ct.drop keysize)).all
      (fun b => decide (b.length ≤ (ct.take keysize).length))) = true := by
    rw [List.all_eq_true]
    intro b hb
    rcases List.mem_cons.mp hb with rfl | hb2
    · simp
    · have h1 := chunksList_mem_length hb2
      simp only [decide_eq_true_eq, List.length_take, List.length_drop] at h1 ⊢
      omega
  rw [hchunks]
  simp only [transpose_blocks]
  rw [if_pos hall]
  congr 1
  rw [List.length_take]
  apply List.map_congr_left
  intro i hi
  rw [colOfChunks, hchunks]

lemma keyBytesOf_spec (keysize : Nat) (hk : 1 ≤ keysize) {ct : List Nat}
    (hct : ct ≠ []) :
    keyBytesOf keysize ct
      = some ((List.range (min keysize ct.length)).map
          (fun i => (break_single_char_xor (colBytes keysize i ct)).2.1)) := by
  unfold keyBytesOf
  rw [transpose_chunks_some keysize hk hct]
  simp only [Option.map_some', List.map_map]
  refine congrArg some (List.map_congr_left ?_)
  intro i hi
  have hi2 : i < min keysize ct.length := List.mem_range.mp hi
  simp only [Function.comp_apply]
  rw [colOfChunks_eq_colBytes keysize i (by omega) (by omega) ct.length ct (le_refl _)]

lemma cycleTake_length (size : Nat) {key : List Nat} (h : key ≠ []) :
    (cycleTake size key).length = size := by
  rw [cycleTake, if_neg h]
  simp

lemma cycleTake_mem {size : Nat} {key : List Nat} (h : key ≠ []) :
    ∀ x ∈ cycleTake size key, x ∈ key := by
  intro x hx
  rw [cycleTake, if_neg h] at hx
  obtain ⟨m, _, rfl⟩ := List.mem_map.mp hx
  have hlen : 0 < key.length := List.length_pos.mpr h
  have hmod : m % key.length < key.length := Nat.mod_lt m hlen
  rw [List.getD_eq_getElem key 0 hmod]
  exact List.getElem_mem hmod

/-- C7: `edit_distance` (Byte Distance) fails with a length-mismatch
condition exactly when its two byte-sequence inputs differ in length (it
never truncates or pads), and for every pair of equal-length sequences it
returns the total number of differing bits: the sum over positions of the
Hamming weight of the bitwise XOR of corresponding bytes. -/
theorem edit_distance_mismatch_iff (a b : List Nat) :
    (edit_distance a b = none ↔ a.length ≠ b.length) ∧
    (a.length = b.length →
      edit_distance a b
        = some ((List.zipWith (fun x y => countOnes (x ^^^ y)) a b).sum)) := by
  constructor
  · constructor
    · intro h hlen
      unfold edit_distance fixed_xor at h
      rw [if_pos hlen, if_pos hlen] at h
      simp at h
    · intro hne
      unfold edit_distance
      rw [if_neg hne]
  · intro hlen
    unfold edit_distance fixed_xor
    rw [if_pos hlen, if_pos hlen]
    simp only [Option.map_some', List.map_zipWith]

/-- Witness for C7 at concrete inputs: mismatched lengths panic, and
`edit_distance [1,2] [3,4]` is 3 (xor 2 has one bit, xor 6 has two). -/
theorem edit_distance_mismatch_iff_witness :
    edit_distance [1, 2] [7] = none ∧ edit_distance [1, 2] [3, 4] = some 3 := by
  refine ⟨(edit_distance_mismatch_iff [1, 2] [7]).1.mpr (by decide), ?_⟩
  exact ((edit_distance_mismatch_iff [1, 2] [3, 4]).2 (by decide)).trans (by decide)

/-- C8: `edit_distance` of a sequence with itself is 0, and `edit_distance`
is symmetric on equal-length sequences. -/
theorem edit_distance_self_symm (a b : List Nat) :
    edit_distance a a = some 0 ∧
    (a.length = b.length → edit_distance a b = edit_distance b a) := by
  constructor
  · unfold edit_distance fixed_xor
    rw [if_pos rfl, if_pos rfl]
    simp only [Option.map_some']
    refine congrArg some ?_
    induction a with
    | nil => rfl
    | cons x xs ih =>
      simp only [List.zipWith_cons_cons, List.map_cons, List.sum_cons, Nat.xor_self]
      rw [ih]
      rfl
  · intro hlen
    unfold edit_distance fixed_xor
    rw [if_pos hlen, if_pos hlen, if_pos hlen.symm, if_pos hlen.symm]
    simp only [Option.map_some']
    refine congrArg some (congrArg _ (congrArg _ ?_))
    exact List.zipWith_comm_of_comm _ Nat.xor_comm a b

/-- Witness for C8 at concrete inputs. -/
theorem edit_distance_self_symm_witness :
    edit_distance [5, 9] [5, 9] = some 0 ∧
    edit_distance [5, 9] [12, 3] = edit_distance [12, 3] [5, 9] :=
  ⟨(edit_distance_self_symm [5, 9] [12, 3]).1,
    (edit_distance_self_symm [5, 9] [12, 3]).2 (by decide)⟩

/-- C5: `break_single_char_xor` tries all 256 keys 0..=255 in order and
returns the candidate triple (score, key, decoded text) of a key whose
frequency score is maximal among all 256 keys and which is strictly better
than every smaller key, i.e. the first-seen (lowest) key attaining the
maximal score, together with its decoded text. -/
theorem break_single_char_xor_first_argmax (bytes : List Nat)
    (hbytes : ∀ x ∈ bytes, x < 256) :
    ∃ k, k < 256 ∧
      break_single_char_xor bytes
        = (keyScore bytes k, k, utf8Lossy (bytes.map (fun b => b ^^^ k))) ∧
      (∀ j, j < 256 → keyScore bytes j ≤ keyScore bytes k) ∧
      (∀ j, j < k → keyScore bytes j < keyScore bytes k) := by
  obtain ⟨k, hk, hR, hmax, hfirst⟩ := break_single_char_xor_spec bytes hbytes
  exact ⟨k, hk, hR, fun j hj => hmax j hj, hfirst⟩

/-- Witness for C5 at the concrete ciphertext [0x41]. -/
theorem break_single_char_xor_first_argmax_witness :
    (∀ x ∈ [0x41], x < 256) ∧
    ∃ k, k < 256 ∧
      break_single_char_xor [0x41]
        = (keyScore [0x41] k, k, utf8Lossy ([0x41].map (fun b => b ^^^ k))) ∧
      (∀ j, j < 256 → keyScore [0x41] j ≤ keyScore [0x41] k) ∧
      (∀ j, j < k → keyScore [0x41] j < keyScore [0x41] k) :=
  ⟨by decide, break_single_char_xor_first_argmax [0x41] (by decide)⟩

/-- C9: for every non-empty byte ciphertext, the triple returned by
`break_single_char_xor` is self-consistent: the score is strictly positive
(so the sentinel (0, 0, "") survives only for empty input), the plaintext
is the lossy decoding of the ciphertext XORed with the returned key, and
the score is the frequency score of that plaintext. -/
theorem break_single_char_xor_consistent (bytes : List Nat) (hne : bytes ≠ [])
    (hbytes : ∀ x ∈ bytes, x < 256) :
    0 < (break_single_char_xor bytes).1 ∧
    (break_single_char_xor bytes).2.2
      = utf8Lossy (bytes.map (fun b => b ^^^ (break_single_char_xor bytes).2.1)) ∧
    (break_single_char_xor bytes).1
      = count_freq_score ((break_single_char_xor bytes).2.2) := by
  obtain ⟨k, hk, hR, hmax, _⟩ := break_single_char_xor_spec bytes hbytes
  cases bytes with
  | nil => exact absurd rfl hne
  | cons b rest =>
    have hb : b < 2 ^ 8 := hbytes b (List.mem_cons_self b rest)
    have hkey : b ^^^ 0x20 < 256 := by
      have h2 : (0x20 : Nat) < 2 ^ 8 := by decide
      have h3 := Nat.xor_lt_two_pow hb h2
      simpa using h3
    have hpos : 0 < keyScore (b :: rest) (b ^^^ 0x20) := keyScore_space_pos b rest
    have h1 : 0 < keyScore (b :: rest) k := lt_of_lt_of_le hpos (hmax _ hkey)
    rw [hR]
    exact ⟨h1, rfl, rfl⟩

/-- Witness for C9 at the concrete ciphertext [0x42]. -/
theorem break_single_char_xor_consistent_witness :
    0 < (break_single_char_xor [0x42]).1 ∧
    (break_single_char_xor [0x42]).2.2
      = utf8Lossy ([0x42].map (fun b => b ^^^ (break_single_char_xor [0x42]).2.1)) ∧
    (break_single_char_xor [0x42]).1
      = count_freq_score ((break_single_char_xor [0x42]).2.2) :=
  break_single_char_xor_consistent [0x42] (by decide) (by decide)

/-- C10: the transposition step reads the first block unconditionally, so
for every keysize >= 1 and non-empty ciphertext it succeeds and the number
of columns equals the length of the first block, which is
min(keysize, ciphertext length); on the empty ciphertext the
out-of-bounds branch is reached and `break_repeating_key_xor` panics. -/
theorem transpose_first_block_columns (keysize : Nat) (ct : List Nat)
    (hk : 1 ≤ keysize) :
    (ct ≠ [] → ∃ cols, transpose_blocks (chunksList keysize ct) = some cols ∧
      cols.length = ((chunksList keysize ct).headD []).length ∧
      cols.length = min keysize ct.length) ∧
    (ct = [] → transpose_blocks (chunksList keysize ct) = none ∧
      break_repeating_key_xor keysize ct = none) := by
  constructor
  · intro hne
    refine ⟨_, transpose_chunks_some keysize hk hne, ?_, by simp⟩
    rw [chunksList_cons keysize (by omega) hne]
    simp [List.length_take]
  · intro he
    subst he
    exact ⟨rfl, rfl⟩

/-- Witness for C10 at keysize 3 and the two-byte ciphertext [1, 2]:
two columns, the length of the (single, short) first block. -/
theorem transpose_first_block_columns_witness :
    ∃ cols, transpose_blocks (chunksList 3 [1, 2]) = some cols ∧
      cols.length = ((chunksList 3 [1, 2]).headD []).length ∧
      cols.length = min 3 ([1, 2] : List Nat).length :=
  (transpose_first_block_columns 3 [1, 2] (by decide)).1 (by decide)

lemma break_repeating_key_xor_fst (keysize : Nat) (ct : List Nat) {kb : List Nat}
    (hkb : keyBytesOf keysize ct = some kb) :
    ∀ res, break_repeating_key_xor keysize ct = some res → res.1 = kb := by
  intro res hres
  unfold break_repeating_key_xor at hres
  rw [hkb] at hres
  simp only [Option.some_bind] at hres
  cases hp : bytes_to_plaintext kb with
  | none => rw [hp] at hres; simp at hres
  | some keyChars =>
    rw [hp] at hres
    simp only [Option.some_bind] at hres
    cases hx : fixed_xor ct (repeat_key ct.length keyChars) with
    | none => rw [hx] at hres; simp at hres
    | some xored =>
      rw [hx] at hres
      simp only [Option.some_bind] at hres
      cases hp2 : bytes_to_plaintext xored with
      | none => rw [hp2] at hres; simp at hres
      | some ptext =>
        rw [hp2] at hres
        simp only [Option.map_some'] at hres
        injection hres with h2
        rw [← h2]

set_option maxRecDepth 100000 in
/-- Counterexample to C3 as stated: with keysize 2 and the one-byte
ciphertext [0x20], `break_repeating_key_xor` returns the key [0] of length
1, not of length 2 = keysize (the transposition sizes its columns by the
first block, whose length is min(keysize, ciphertext length)). -/
theorem break_repeating_key_xor_short_ct_key_len :
    break_repeating_key_xor 2 [0x20] = some ([0], [0x20]) ∧
    ([0] : List Nat).length ≠ 2 :=
  ⟨rfl, by decide⟩

/-- C3 (amended): for every keysize >= 1 and non-empty ciphertext, the
recovered key has length min(keysize, ciphertext length) — equal to keysize
exactly when the ciphertext is at least keysize bytes — and key byte `i` is
the winning key byte of `break_single_char_xor` on the bytes of the
ciphertext at positions congruent to `i` modulo keysize; whenever
`break_repeating_key_xor` returns, its key component is this sequence. -/
theorem break_repeating_key_xor_key_columns (keysize : Nat) (ct : List Nat)
    (hk : 1 ≤ keysize) (hne : ct ≠ []) :
    ∃ kb, keyBytesOf keysize ct = some kb ∧
      kb.length = min keysize ct.length ∧
      (∀ i, i < kb.length →
        kb.getD i 0 = (break_single_char_xor (colBytes keysize i ct)).2.1) ∧
      ∀ res, break_repeating_key_xor keysize ct = some res → res.1 = kb := by
  refine ⟨_, keyBytesOf_spec keysize hk hne, ?_, ?_,
    break_repeating_key_xor_fst keysize ct (keyBytesOf_spec keysize hk hne)⟩
  · simp
  · intro i hi
    simp only [List.length_map, List.length_range] at hi
    rw [List.getD_eq_getElem _ 0 (by simpa using hi)]
    simp

/-- Witness for C3 at keysize 2 and ciphertext [0x20, 0x20, 0x20]. -/
theorem break_repeating_key_xor_key_columns_witness :
    ∃ kb, keyBytesOf 2 [0x20, 0x20, 0x20] = some kb ∧
      kb.length = min 2 ([0x20, 0x20, 0x20] : List Nat).length ∧
      (∀ i, i < kb.length →
        kb.getD i 0 = (break_single_char_xor (colBytes 2 i [0x20, 0x20, 0x20])).2.1) ∧
      ∀ res, break_repeating_key_xor 2 [0x20, 0x20, 0x20] = some res → res.1 = kb :=
  break_repeating_key_xor_key_columns 2 [0x20, 0x20, 0x20] (by decide) (by decide)

set_option maxRecDepth 400000 in
/-- Counterexample to C4 as stated: with keysize 2 and ciphertext
[0xE3, 0x89] the recovered key bytes are [0xC3, 0xA9]; they decode as the
single character U+00E9, so cycling the key *characters* to the ciphertext
length 2 re-encodes to 4 bytes — the materialized repeating key does not
have the ciphertext's length, and `break_repeating_key_xor` fails with
`fixed_xor`'s length-mismatch panic, not with an encoding-invalid
condition on the final XORed bytes. -/
theorem break_repeating_key_xor_nonascii_key :
    keyBytesOf 2 [0xE3, 0x89] = some [0xC3, 0xA9] ∧
    bytes_to_plaintext [0xC3, 0xA9] = some [0xE9] ∧
    (repeat_key 2 [0xE9]).length = 4 ∧
    break_repeating_key_xor 2 [0xE3, 0x89] = none :=
  ⟨rfl, rfl, rfl, rfl⟩

/-- C4 (amended): whenever every recovered key byte is ASCII, the
materialized repeating key sequence (the key bytes cycled) has exactly the
ciphertext's length, the plaintext bytes are the ciphertext XORed with that
sequence, and the only remaining failure of step 5 is the encoding-invalid
condition on those final XORed bytes (the `Option.map` below is `none`
exactly when decoding them fails).  With a non-ASCII recovered key the key
string decode may panic or the char-cycled key may out-length the
ciphertext, as the counterexample shows. -/
theorem break_repeating_key_xor_ascii_key (keysize : Nat) (ct : List Nat)
    (kb : List Nat) (hk : 1 ≤ keysize) (hne : ct ≠ [])
    (hkb : keyBytesOf keysize ct = some kb) (hascii : ∀ b ∈ kb, b < 0x80) :
    (repeat_key ct.length kb).length = ct.length ∧
    break_repeating_key_xor keysize ct
      = (bytes_to_plaintext
          (List.zipWith (fun b1 b2 => b1 ^^^ b2) ct (repeat_key ct.length kb))).map
          (fun p => (kb, p)) := by
  have hkbne : kb ≠ [] := by
    have hspec := (keyBytesOf_spec keysize hk hne).symm.trans hkb
    injection hspec with he
    intro hnil
    rw [hnil] at he
    have hmin : 1 ≤ min keysize ct.length := by
      have : 1 ≤ ct.length := by
        cases ct with
        | nil => exact absurd rfl hne
        | cons x xs => simp
      omega
    have hlen := congrArg List.length he
    simp only [List.length_map, List.length_range, List.length_nil] at hlen
    omega
  have hrep : repeat_key ct.length kb = cycleTake ct.length kb :=
    utf8Encode_ascii (fun x hx => hascii x (cycleTake_mem hkbne x hx))
  have hlen : (repeat_key ct.length kb).length = ct.length := by
    rw [hrep, cycleTake_length _ hkbne]
  refine ⟨hlen, ?_⟩
  unfold break_repeating_key_xor
  rw [hkb]
  simp only [Option.some_bind]
  rw [bytes_to_plaintext, utf8Decode_ascii hascii]
  simp only [Option.some_bind]
  have hfx : fixed_xor ct (repeat_key ct.length kb)
      = some (List.zipWith (fun b1 b2 => b1 ^^^ b2) ct (repeat_key ct.length kb)) := by
    unfold fixed_xor
    rw [if_pos hlen.symm]
  rw [hfx]
  simp only [Option.some_bind]

set_option maxRecDepth 400000 in
/-- Witness for C4 (amended) at keysize 2 and ciphertext [0x20, 0x20],
whose recovered key [0, 0] is ASCII. -/
theorem break_repeating_key_xor_ascii_key_witness :
    (repeat_key ([0x20, 0x20] : List Nat).length [0, 0]).length
        = ([0x20, 0x20] : List Nat).length ∧
    break_repeating_key_xor 2 [0x20, 0x20]
      = (bytes_to_plaintext
          (List.zipWith (fun b1 b2 => b1 ^^^ b2) [0x20, 0x20]
            (repeat_key ([0x20, 0x20] : List Nat).length [0, 0]))).map
          (fun p => ([0, 0], p)) :=
  break_repeating_key_xor_ascii_key 2 [0x20, 0x20] [0, 0] (by decide) (by decide)
    (by decide) (by decide)

set_option maxRecDepth 400000 in
/-- C1 (code evaluated at the failing input): on the two-byte ciphertext
[0, 0] every candidate keysize in 2..=40 has only one sampled block, yet
the candidate is not excluded from the ranking: the loop pushes the
undefined ratio 0/0 (an f64 NaN, `Except.ok none` here) for keysize 2, and
`guess_keysize` then panics at the `unwrap` inside
`distances.sort_by(partial_cmp)` when a NaN entry is compared. -/
theorem guess_keysize_nan_not_excluded :
    candidate [0, 0] 2 = Except.ok none ∧
    guess_keysize [0, 0] = Except.error GKErr.sortNaN :=
  ⟨rfl, rfl⟩

set_option maxRecDepth 400000 in
/-- C2 (code evaluated at the failing input): on the three-byte ciphertext
[0, 0, 0], candidate keysize 2 samples the blocks [[0,0],[0]] because
`data.chunks(keysize)` keeps the final partial block, so `edit_distance`
reaches its length-mismatch panic inside the estimator. -/
theorem guess_keysize_partial_block_mismatch :
    (chunksList 2 [0, 0, 0]).take 4 = [[0, 0], [0]] ∧
    edit_distance [0, 0] [0] = none ∧
    candidate [0, 0, 0] 2 = Except.error GKErr.lenMismatch ∧
    guess_keysize [0, 0, 0] = Except.error GKErr.lenMismatch :=
  ⟨rfl, rfl, rfl, rfl⟩

set_option maxRecDepth 400000 in
/-- Counterexample to C6 as stated: on the one-byte ciphertext [0],
`guess_keysize` returns no keysize at all — every candidate keysize gets
the undefined 0/0 ratio and the sort's unwrap panics. -/
theorem guess_keysize_short_input_no_result :
    guess_keysize [0] = Except.error GKErr.sortNaN ∧
    ∀ k, guess_keysize [0] ≠ Except.ok k := by
  refine ⟨rfl, fun k h => ?_⟩
  rw [show guess_keysize [0] = Except.error GKErr.sortNaN from rfl] at h
  exact Except.noConfusion h

/-- C6 (amended): whenever `guess_keysize` returns a keysize (rather than
panicking on a short ciphertext), that keysize lies in 2..=40 and its
normalized distance — the sum of pairwise sampled-block distances divided
by (number of pairs x keysize), as computed by `candidate` — is minimal
among all candidate keysizes, with ties broken in favor of the smallest
keysize. -/
theorem guess_keysize_min_normalized (data : List Nat) (k : Nat)
    (hok : guess_keysize data = Except.ok k) :
    2 ≤ k ∧ k ≤ 40 ∧
    ∃ q : ℚ, candidate data k = Except.ok (some q) ∧
      ∀ ks, 2 ≤ ks → ks ≤ 40 →
        ∃ qs : ℚ, candidate data ks = Except.ok (some qs) ∧ q ≤ qs ∧
          (qs = q → k ≤ ks) := by
  cases hg : gkLoop data ((List.range 39).map (fun m => m + 2)) with
  | error e =>
    simp only [guess_keysize, hg] at hok
    exact Except.noConfusion hok
  | ok cands =>
    cases hl : liftOpt cands with
    | none =>
      simp only [guess_keysize, hg, hl] at hok
      exact Except.noConfusion hok
    | some vals =>
      cases hp : pickMin vals with
      | none =>
        simp only [guess_keysize, hg, hl, hp] at hok
        exact Except.noConfusion hok
      | some best =>
        simp only [guess_keysize, hg, hl, hp] at hok
        obtain ⟨hmap, hforall, hback⟩ := gkVals data _ cands vals hg hl
        obtain ⟨⟨l1, l2, hsplit, hl1⟩, hmin⟩ := pickMin_spec vals best hp
        injection hok with hok2
        subst hok2
        have hbmem : best ∈ vals := by
          rw [hsplit]
          exact List.mem_append_right _ (List.mem_cons_self _ _)
        have hbks : 2 ≤ best.1 ∧ best.1 ≤ 40 := by
          have hmem : best.1 ∈ (List.range 39).map (fun m => m + 2) := by
            rw [← hmap]
            exact List.mem_map.mpr ⟨best, hbmem, rfl⟩
          exact (mem_ksRange best.1).mp hmem
        refine ⟨hbks.1, hbks.2, best.2, hback best hbmem, ?_⟩
        intro ks h2 h40
        obtain ⟨qs, hqs, hqsmem⟩ := hforall ks ((mem_ksRange ks).mpr ⟨h2, h40⟩)
        refine ⟨qs, hqs, hmin (ks, qs) hqsmem, ?_⟩
        intro hqq
        have hpw : List.Pairwise (fun v w : Nat × ℚ => v.1 < w.1) vals := by
          have h1 : List.Pairwise (fun a b => a < b)
              ((List.range 39).map (fun m => m + 2)) := by
            rw [List.pairwise_map]
            exact (List.pairwise_lt_range 39).imp (fun hab => by omega)
          rw [← hmap, List.pairwise_map] at h1
          exact h1
        have hnotl1 : (ks, qs) ∉ l1 := by
          intro hin
          have hlt := hl1 (ks, qs) hin
          rw [hqq] at hlt
          exact lt_irrefl _ hlt
        have hmem2 : (ks, qs) ∈ best :: l2 := by
          rcases List.mem_append.mp (by rw [← hsplit]; exact hqsmem) with hin | hin
          · exact absurd hin hnotl1
          · exact hin
        rcases List.mem_cons.mp hmem2 with heq | hin2
        · have h3 := congrArg Prod.fst heq
          simp only at h3
          omega
        · have hsub : List.Pairwise (fun v w : Nat × ℚ => v.1 < w.1) (best :: l2) := by
            refine List.Pairwise.sublist ?_ hpw
            rw [hsplit]
            exact List.sublist_append_right l1 (best :: l2)
          exact le_of_lt ((List.pairwise_cons.mp hsub).1 (ks, qs) hin2)

set_option maxRecDepth 1000000 in
/-- Witness for C6 (amended) at the 160-byte all-zero ciphertext, on which
`guess_keysize` succeeds and returns 2. -/
theorem guess_keysize_min_normalized_witness :
    guess_keysize (List.replicate 160 0) = Except.ok 2 ∧
    (2 ≤ 2 ∧ 2 ≤ 40 ∧
      ∃ q : ℚ, candidate (List.replicate 160 0) 2 = Except.ok (some q) ∧
        ∀ ks, 2 ≤ ks → ks ≤ 40 →
          ∃ qs : ℚ, candidate (List.replicate 160 0) ks = Except.ok (some qs) ∧
            q ≤ qs ∧ (qs = q → 2 ≤ ks)) :=
  ⟨rfl, guess_keysize_min_normalized (List.replicate 160 0) 2 rfl⟩
